import Mathlib

/-!
# Verification of the printer-dashboard fulfillment reconciliation core

Shallow embedding of the order-dashboard core (the `GenesisShipDashboard`
components): the order projection store refresh (`fetchGenesisOrders`), the
bounded polling reconciler (`pollForLabels`), the completion patch applied by
`shipNow`, and the timestamp normalization used by the sort comparator.

JavaScript-specific behaviours are modelled explicitly:
* `Option String` models `string | undefined` (and `string | null`) values;
* string truthiness (`""`, `null`, `undefined` are falsy) is `strTruthy`;
* object/`Map` key assignment is `jsSet` (in-place update, insertion order
  preserved, new keys appended) and lookup is `jsGet`;
* `Array.prototype.sort` (stable since ES2019) is modelled by a stable
  insertion sort `sortOrders`;
* `new Date(s).getTime()` on ISO date-time strings with an explicit zone is
  modelled by `jsDateParseChars` following the ECMAScript Date Time String
  Format (zone-less strings are interpreted as local time by JS; they never
  reach `Date` here because the comparator appends `Z` first, so the model
  returns `none` for them).
-/

/-- Truthiness of a JS `string | undefined | null` value: `undefined`, `null`
and the empty string are falsy. -/
def strTruthy : Option String → Bool
  | some s => s ≠ ""
  | none => false

/-- JS `v || d` for a `string | undefined | null` value `v`: yields `v`
when truthy, else the default `d`. -/
def jsOr : Option String → String → String
  | some s, d => if s = "" then d else s
  | none, d => d

/-- An association list keyed by strings, modelling a JS object/`Map` whose
values have type `α`. Insertion order is the list order. -/
abbrev JMap (α : Type) := List (String × α)

/-- JS object/`Map` assignment `m[k] = v`: updates the first entry with key
`k` in place, or appends a fresh entry at the end. -/
def jsSet {α : Type} : JMap α → String → α → JMap α
  | [], k, v => [(k, v)]
  | (k', v') :: rest, k, v =>
    if k' = k then (k, v) :: rest else (k', v') :: jsSet rest k v

/-- JS object/`Map` lookup `m[k]` / `m.get(k)`: `none` models `undefined`
for an absent key. -/
def jsGet {α : Type} : JMap α → String → Option α
  | [], _ => none
  | (k', v') :: rest, k => if k' = k then some v' else jsGet rest k

/-- The key list of a map, in insertion order. -/
def jkeys {α : Type} (m : JMap α) : List String := m.map Prod.fst

/-- A raw order record as decoded from the listing response
(`RawOrder` in the source): every display field is optional. -/
structure RawOrder where
  order_id : String
  name : Option String := none
  phone_number : Option String := none
  city : Option String := none
  bookId : Option String := none
  bookStyle : Option String := none
  coverPdf : Option String := none
  interiorPdf : Option String := none
  printer : Option String := none
  label_url : Option String := none
  print_sent_at : Option String := none
  zip : Option String := none
  deriving Repr, DecidableEq

/-- A trimmed order record as held in the projection store after
`fetchGenesisOrders` normalizes every optional field to `""`. -/
structure Order where
  order_id : String
  name : String := ""
  phone_number : String := ""
  city : String := ""
  bookId : String := ""
  bookStyle : String := ""
  coverPdf : String := ""
  interiorPdf : String := ""
  printer : String := ""
  label_url : String := ""
  print_sent_at : String := ""
  zip : String := ""
  deriving Repr, DecidableEq

/-! ## Timestamp normalization and the Date model

The sort comparator in `fetchGenesisOrders` parses `print_sent_at` with
```
const parse = (v) => {
  if (!v) return 0;
  let normalized = v;
  if (!/[zZ]|[+-]\d{2}:?\d{2}$/.test(v)) {
    normalized = v.replace(/(\.\d{3})\d+/, "$1") + "Z";
  }
  const d = new Date(normalized);
  return d.getTime() || 0;
};
```
-/

/-- The test `/[zZ]|[+-]\d{2}:?\d{2}$/.test(v)`: the string contains a
`z`/`Z` anywhere, or ends with a `±HH:MM` / `±HHMM` offset. -/
def hasZoneMarker (cs : List Char) : Bool :=
  cs.any (fun c => c = 'z' || c = 'Z') || endsWithOffset cs
where
  /-- Matches `[+-]\d{2}:?\d{2}$`. -/
  endsWithOffset (cs : List Char) : Bool :=
    match cs.reverse with
    | m2 :: m1 :: ':' :: h2 :: h1 :: sgn :: _ =>
      m1.isDigit && m2.isDigit && h1.isDigit && h2.isDigit &&
        (sgn = '+' || sgn = '-')
    | m2 :: m1 :: h2 :: h1 :: sgn :: _ =>
      m1.isDigit && m2.isDigit && h1.isDigit && h2.isDigit &&
        (sgn = '+' || sgn = '-')
    | _ => false

/-- Drops a maximal leading run of decimal digits (the tail of the greedy
`\d+` in the truncation regex). -/
def dropDigits : List Char → List Char
  | [] => []
  | c :: rest => if c.isDigit then dropDigits rest else c :: rest

/-- Models `v.replace(/(\.\d{3})\d+/, "$1")`: truncates the first run of
more than three sub-second digits down to three; non-global, so only the
first match is replaced. -/
def truncFrac : List Char → List Char
  | [] => []
  | x :: rest =>
    if x = '.' then
      match rest with
      | a :: b :: c :: d :: rest2 =>
        if a.isDigit && b.isDigit && c.isDigit && d.isDigit then
          '.' :: a :: b :: c :: dropDigits rest2
        else '.' :: truncFrac rest
      | _ => '.' :: truncFrac rest
    else x :: truncFrac rest

/-- The comparator's normalization step: a string with no zone marker gets
its sub-second digits truncated to three and a `Z` (UTC) appended. -/
def normalizeTs (cs : List Char) : List Char :=
  if hasZoneMarker cs then cs else truncFrac cs ++ ['Z']

/-- Splits a character list on a separator character; mirrors
`String.prototype.split` with a single-character separator. -/
def splitOnChar (c : Char) : List Char → List (List Char)
  | [] => [[]]
  | x :: xs =>
    match splitOnChar c xs with
    | [] => [[]]
    | g :: gs => if x = c then [] :: g :: gs else (x :: g) :: gs

/-- Decimal value of an all-digit character list. -/
def decNat (cs : List Char) : Nat :=
  cs.foldl (fun a c => a * 10 + (c.toNat - 48)) 0

/-- Holds when the list is exactly `n` decimal digits. -/
def isDigits (n : Nat) (cs : List Char) : Bool :=
  cs.length = n && cs.all Char.isDigit

/-- Gregorian leap-year test. -/
def isLeap (y : Nat) : Bool :=
  y % 4 = 0 && (y % 100 ≠ 0 || y % 400 = 0)

/-- Number of days in a month of the proleptic Gregorian calendar. -/
def daysInMonth (y m : Nat) : Nat :=
  if m = 2 then (if isLeap y then 29 else 28)
  else if m = 4 || m = 6 || m = 9 || m = 11 then 30
  else 31

/-- Days in year `y` strictly before month `m` (1-based). -/
def daysBeforeMonth (y m : Nat) : Nat :=
  (List.range (m - 1)).foldl (fun a i => a + daysInMonth y (i + 1)) 0

/-- Leap days among years `1 .. n`. -/
def leapsUpto (n : Nat) : Nat :=
  n / 4 - n / 100 + n / 400

/-- Days from the epoch 1970-01-01 to the civil date `y-m-d` (proleptic
Gregorian; 719162 is the day count from 0001-01-01 to the epoch). -/
def epochDays (y m d : Nat) : Int :=
  let since1 : Int :=
    if y = 0 then (daysBeforeMonth 0 m + (d - 1) : Nat) - (366 : Int)
    else ((365 * (y - 1) + leapsUpto (y - 1) + daysBeforeMonth y m + (d - 1) : Nat) : Int)
  since1 - 719162

/-- Extracts the UTC-offset suffix of a date-time string: a trailing
`Z`/`z` gives offset zero, a trailing `±HH:MM` / `±HHMM` gives its minute
value, anything else yields `none` (zone-less strings are local time in JS
and out of this model; they never reach `Date` in the embedded code). The
returned list is the remaining body. -/
def parseZone (cs : List Char) : Option (List Char × Int) :=
  match cs.reverse with
  | [] => none
  | c :: rest =>
    if c = 'Z' || c = 'z' then some (rest.reverse, 0)
    else
      match cs.reverse with
      | m2 :: m1 :: ':' :: h2 :: h1 :: sgn :: rest2 =>
        if m1.isDigit && m2.isDigit && h1.isDigit && h2.isDigit &&
            (sgn = '+' || sgn = '-') then
          let off : Int :=
            ((10 * (h1.toNat - 48) + (h2.toNat - 48)) * 60
              + (10 * (m1.toNat - 48) + (m2.toNat - 48)) : Nat)
          some (rest2.reverse, if sgn = '-' then -off else off)
        else none
      | m2 :: m1 :: h2 :: h1 :: sgn :: rest2 =>
        if m1.isDigit && m2.isDigit && h1.isDigit && h2.isDigit &&
            (sgn = '+' || sgn = '-') then
          let off : Int :=
            ((10 * (h1.toNat - 48) + (h2.toNat - 48)) * 60
              + (10 * (m1.toNat - 48) + (m2.toNat - 48)) : Nat)
          some (rest2.reverse, if sgn = '-' then -off else off)
        else none
      | _ => none

/-- Parses the calendar-date part `YYYY[-MM[-DD]]` of a date-time string,
validating month and day ranges. -/
def parseDatePart (cs : List Char) : Option (Nat × Nat × Nat) :=
  let check (y m d : Nat) : Option (Nat × Nat × Nat) :=
    if 1 ≤ m && m ≤ 12 && 1 ≤ d && d ≤ daysInMonth y m then some (y, m, d)
    else none
  match splitOnChar '-' cs with
  | [ys] => if isDigits 4 ys then check (decNat ys) 1 1 else none
  | [ys, ms] =>
    if isDigits 4 ys && isDigits 2 ms then check (decNat ys) (decNat ms) 1
    else none
  | [ys, ms, ds] =>
    if isDigits 4 ys && isDigits 2 ms && isDigits 2 ds then
      check (decNat ys) (decNat ms) (decNat ds)
    else none
  | _ => none

/-- Milliseconds denoted by a fractional-second digit run: the first three
digits, right-padded with zeros (further digits are discarded, as JS
engines do when reading fractions longer than milliseconds). -/
def msOfFrac (cs : List Char) : Nat :=
  let t := cs.take 3
  decNat t * (if t.length = 1 then 100 else if t.length = 2 then 10 else 1)

/-- Parses the time part `HH:mm[:ss[.fff]]`, validating field ranges
(ECMAScript allows `24:00:00.000` exactly). -/
def parseTimePart (cs : List Char) : Option (Nat × Nat × Nat × Nat) :=
  let check (h mi s ms : Nat) : Option (Nat × Nat × Nat × Nat) :=
    if (h ≤ 23 || (h = 24 && mi = 0 && s = 0 && ms = 0)) &&
        mi ≤ 59 && s ≤ 59 then some (h, mi, s, ms)
    else none
  match splitOnChar ':' cs with
  | [hs, ms] =>
    if isDigits 2 hs && isDigits 2 ms then check (decNat hs) (decNat ms) 0 0
    else none
  | [hs, mins, sfr] =>
    if isDigits 2 hs && isDigits 2 mins then
      match splitOnChar '.' sfr with
      | [ss] =>
        if isDigits 2 ss then check (decNat hs) (decNat mins) (decNat ss) 0
        else none
      | [ss, fr] =>
        if isDigits 2 ss && fr.length ≥ 1 && fr.all Char.isDigit then
          check (decNat hs) (decNat mins) (decNat ss) (msOfFrac fr)
        else none
      | _ => none
    else none
  | _ => none

/-- Models `new Date(s).getTime()` for ECMAScript Date Time String Format
strings carrying an explicit zone: `none` models `NaN` (invalid date). -/
def jsDateParseChars (cs : List Char) : Option Int :=
  match parseZone cs with
  | none => none
  | some (body, off) =>
    let withDate (dt : Nat × Nat × Nat) (tm : Nat × Nat × Nat × Nat) : Int :=
      epochDays dt.1 dt.2.1 dt.2.2 * 86400000
        + (tm.1 * 3600000 + tm.2.1 * 60000 + tm.2.2.1 * 1000 + tm.2.2.2 : Nat)
        - off * 60000
    match splitOnChar 'T' body with
    | [ds] =>
      match parseDatePart ds with
      | some dt => some (withDate dt (0, 0, 0, 0))
      | none => none
    | [ds, ts] =>
      match parseDatePart ds, parseTimePart ts with
      | some dt, some tm => some (withDate dt tm)
      | _, _ => none
    | _ => none

/-- Models `d.getTime() || 0` applied to the parse result: `NaN` (and an
exact zero) collapse to `0`. -/
def getTimeOr0 (cs : List Char) : Int :=
  match jsDateParseChars cs with
  | some t => t
  | none => 0

/-- The sort comparator's `parse` function: empty (falsy) strings give 0,
otherwise the string is normalized and handed to `Date`. -/
def jsParse (v : String) : Int :=
  if v = "" then 0 else getTimeOr0 (normalizeTs v.data)

/-- Sort key of a store record: `parse(o.print_sent_at)`. -/
def orderKey (o : Order) : Int := jsParse o.print_sent_at

/-! ## Order Projection Store: `fetchGenesisOrders` -/

/-- Stable insertion step of the JS `Array.prototype.sort` model under the
comparator `(a, b) => parse(b.print_sent_at) - parse(a.print_sent_at)`:
`x` is placed before the first element whose key is not larger. -/
def orderedIns (x : Order) : List Order → List Order
  | [] => [x]
  | y :: ys => if orderKey y ≤ orderKey x then x :: y :: ys else y :: orderedIns x ys

/-- Models `trimmed.sort(comparator)`: a stable sort in descending order of
`orderKey` (JS sort is stable, so this determines the output uniquely). -/
def sortOrders : List Order → List Order
  | [] => []
  | x :: xs => orderedIns x (sortOrders xs)

/-- The `trimmed` mapping of `fetchGenesisOrders`: every optional field is
normalized to the empty string. -/
def trimOrder (o : RawOrder) : Order :=
  { order_id := o.order_id
    name := jsOr o.name ""
    phone_number := jsOr o.phone_number ""
    city := jsOr o.city ""
    bookId := jsOr o.bookId ""
    bookStyle := jsOr o.bookStyle ""
    coverPdf := jsOr o.coverPdf ""
    interiorPdf := jsOr o.interiorPdf ""
    printer := jsOr o.printer ""
    label_url := jsOr o.label_url ""
    print_sent_at := jsOr o.print_sent_at ""
    zip := jsOr o.zip "" }

/-- The `filtered` predicate of `fetchGenesisOrders`: the record's printer
matches the requested queue (case-insensitively) and its identifier does
not carry the `TEST#` marker. -/
def keepOrder (printerKey : String) (o : RawOrder) : Bool :=
  (jsOr o.printer "").toLower = printerKey.toLower &&
    !(o.order_id.toUpper.startsWith ("TEST#"))

/-- A listing response body: either a bare array or an object with
optional `items` and `total` fields. -/
inductive ListingJson
  | arr (data : List RawOrder)
  | obj (items : Option (List RawOrder)) (total : Option Int)
  deriving Repr, DecidableEq

/-- The decoded record array: `Array.isArray(json) ? json : (json.items ?? [])`. -/
def jsonData : ListingJson → List RawOrder
  | ListingJson.arr data => data
  | ListingJson.obj items _ => items.getD []

/-- The reported total: `typeof json.total === "number" ? json.total : data.length`. -/
def jsonTotal (j : ListingJson) : Int :=
  match j with
  | ListingJson.arr _ => (jsonData j).length
  | ListingJson.obj _ (some t) => t
  | ListingJson.obj _ none => (jsonData j).length

/-- Outcome of one listing fetch: the `fetch`/`res.json()` call threw, the
response was non-OK, or a body was decoded. -/
inductive FetchOutcome
  | fetchError
  | notOk
  | ok (json : ListingJson)
  deriving Repr, DecidableEq

/-- State written by one `fetchGenesisOrders` call: the record list and the
total count (`setOrders` / `setTotalOrders`). Without a token, and on a
non-OK response or a thrown fetch/decode error, the store is emptied;
otherwise the decoded records are filtered to the queue, trimmed, and
stably sorted by `print_sent_at` descending. -/
def fetchGenesisOrders (token printerKey : String) (outcome : FetchOutcome) :
    List Order × Int :=
  if token = "" then ([], 0)
  else
    match outcome with
    | FetchOutcome.fetchError => ([], 0)
    | FetchOutcome.notOk => ([], 0)
    | FetchOutcome.ok json =>
      (sortOrders (((jsonData json).filter (keepOrder printerKey)).map trimOrder),
        jsonTotal json)

/-! ## Fulfillment Reconciler: `pollForLabels` -/

/-- A poll result map: each target identifier maps to `null` (not found) or
to a discovered label string. Also the shape of the per-attempt label
lookup `Map` (whose values may be `undefined`). -/
abbrev ResultMap := JMap (Option String)

/-- Result initialization: `for (const id of orderIds) result[id] = null`. -/
def initResult (orderIds : List String) : ResultMap :=
  orderIds.foldl (fun m id => jsSet m id none) []

/-- Per-attempt lookup construction: `map.set(d.order_id, d.label_url)` for
each decoded record with a truthy identifier. -/
def buildLabelMap (data : List RawOrder) : ResultMap :=
  data.foldl (fun m d => if d.order_id = "" then m else jsSet m d.order_id d.label_url) []

/-- Models `map.get(id)` where both an absent key and a stored `undefined`
read back as `undefined`. -/
def mapLookup (m : ResultMap) (k : String) : Option String :=
  match jsGet m k with
  | some v => v
  | none => none

/-- The per-attempt target scan: marks each target whose looked-up label is
truthy, and clears the `allFound` flag for every other target. -/
def scanTargets (m : ResultMap) (r : ResultMap) (flag : Bool) :
    List String → ResultMap × Bool
  | [] => (r, flag)
  | id :: rest =>
    let lbl := mapLookup m id
    if strTruthy lbl then scanTargets m (jsSet r id lbl) flag rest
    else scanTargets m r false rest

/-- Outcome of one poll attempt's listing request. -/
inductive PollOutcome
  | fetchError
  | notOk
  | ok (data : List RawOrder)
  deriving Repr, DecidableEq

/-- The polling loop of `pollForLabels`, driven by the environment `env`
giving each attempt's listing outcome. Returns the result map, the number
of poll requests issued, and the number of `poll_interval` sleeps executed
(the sleep at the end of each loop iteration; the post-interval wake).
A failed or non-OK attempt leaves the result untouched; a successful
attempt that satisfies every target returns immediately without sleeping. -/
def pollAux (ids : List String) (env : Nat → PollOutcome) :
    Nat → Nat → ResultMap → ResultMap × Nat × Nat
  | _, 0, r => (r, 0, 0)
  | a, fuel + 1, r =>
    match env a with
    | PollOutcome.ok data =>
      let t := scanTargets (buildLabelMap data) r true ids
      if t.2 then (t.1, 1, 0)
      else
        let rest := pollAux ids env (a + 1) fuel t.1
        (rest.1, rest.2.1 + 1, rest.2.2 + 1)
    | _ =>
      let rest := pollAux ids env (a + 1) fuel r
      (rest.1, rest.2.1 + 1, rest.2.2 + 1)

/-- Models `pollForLabels(orderIds, pollIntervalMs, maxAttempts)`: the
result map is initialized to `null` per target, then up to `maxAttempts`
poll iterations run. The interval length does not affect the state, so it
is not a parameter; the sleep count stands in for elapsed interval time. -/
def pollForLabels (orderIds : List String) (env : Nat → PollOutcome)
    (maxAttempts : Nat) : ResultMap × Nat × Nat :=
  pollAux orderIds env 0 maxAttempts (initResult orderIds)

/-! ## Completion patch: `shipNow`'s `setOrders` update -/

/-- Models the record-lookup `pollResult[o.order_id]` where both an absent
key and a stored `null` read back falsy. -/
def jsRecGet (m : ResultMap) (k : String) : Option String :=
  match jsGet m k with
  | some (some s) => some s
  | _ => none

/-- The per-record completion patch: replaces `label_url` when the poll
result holds a truthy label for the record's identifier, else leaves the
record unchanged. -/
def patchOrder (pr : ResultMap) (o : Order) : Order :=
  let v := jsRecGet pr o.order_id
  if strTruthy v then { o with label_url := jsOr v o.label_url } else o

/-- Models `setOrders(prev => prev.map(o => ...))` in `shipNow`: the patch
applied across the currently visible page. -/
def applyPollResult (pr : ResultMap) (orders : List Order) : List Order :=
  orders.map (patchOrder pr)


/-! ## Concrete fixtures used to instantiate the theorems -/

/-- An environment whose listing request gets a non-OK response on every
attempt. -/
def envNotOk : Nat → PollOutcome := fun _ => PollOutcome.notOk

/-- A raw listing record for target `A100` carrying a label. -/
def rawA100 : RawOrder := { order_id := "A100", label_url := some "u1" }

/-- An environment whose listing response always contains `rawA100`. -/
def envFound : Nat → PollOutcome := fun _ => PollOutcome.ok [rawA100]

/-- A concrete poll-result fixture resolving `A100` and leaving `A101`
unresolved. -/
def prEx : ResultMap := [("A100", some "u1"), ("A101", none)]

/-- A store record matching the resolved target. -/
def ordEx1 : Order := { order_id := "A100", name := "n1" }

/-- A store record for the unresolved target. -/
def ordEx2 : Order := { order_id := "A101", label_url := "old" }

/-- A record with no `print_sent_at` timestamp. -/
def noTsOrder : Order := { order_id := "A" }

/-- A record whose `print_sent_at` is exactly the epoch instant, which the
comparator's `getTime() || 0` collapses to the missing-timestamp key. -/
def epochTsOrder : Order := { order_id := "B", print_sent_at := "1970-01-01T00:00:00Z" }

/-- A store record with default (empty) fields besides its identifier. -/
def plainOrder : Order := { order_id := "A100" }

/-! ## Map lemmas -/

theorem jsGet_jsSet {α : Type} (m : JMap α) (k q : String) (v : α) :
    jsGet (jsSet m k v) q = if q = k then some v else jsGet m q := by
  induction m with
  | nil =>
    by_cases h : q = k
    · subst h; simp [jsSet, jsGet]
    · simp [jsSet, jsGet, h, Ne.symm h]
  | cons hd tl ih =>
    rcases hd with ⟨a, b⟩
    by_cases hak : a = k
    · subst hak
      by_cases hq : q = a
      · subst hq; simp [jsSet, jsGet]
      · simp [jsSet, jsGet, hq, Ne.symm hq]
    · by_cases haq : a = q
      · subst haq
        have hqk : ¬(a = k) := hak
        simp [jsSet, jsGet, hak, hqk]
      · simp [jsSet, jsGet, hak, haq, ih]

theorem mem_jkeys_iff_jsGet {α : Type} (m : JMap α) (k : String) :
    k ∈ jkeys m ↔ (jsGet m k).isSome := by
  induction m with
  | nil => simp [jkeys, jsGet]
  | cons hd tl ih =>
    rcases hd with ⟨a, b⟩
    simp only [jkeys, List.map_cons, List.mem_cons, jsGet]
    by_cases h : a = k
    · subst h; simp
    · rw [if_neg h]
      constructor
      · rintro (h1 | h1)
        · exact absurd h1.symm h
        · exact ih.mp h1
      · intro h1
        exact Or.inr (ih.mpr h1)

theorem mem_jkeys_jsSet {α : Type} (m : JMap α) (k q : String) (v : α) :
    q ∈ jkeys (jsSet m k v) ↔ q ∈ jkeys m ∨ q = k := by
  rw [mem_jkeys_iff_jsGet, mem_jkeys_iff_jsGet, jsGet_jsSet]
  by_cases h : q = k <;> simp [h]

theorem jkeys_jsSet_of_mem {α : Type} {m : JMap α} {k : String} (v : α)
    (h : k ∈ jkeys m) : jkeys (jsSet m k v) = jkeys m := by
  induction m with
  | nil => simp [jkeys] at h
  | cons hd tl ih =>
    rcases hd with ⟨a, b⟩
    by_cases hak : a = k
    · subst hak; simp [jsSet, jkeys]
    · have hk : k ∈ jkeys tl := by
        simp only [jkeys, List.map_cons, List.mem_cons] at h
        rcases h with h | h
        · exact absurd h.symm hak
        · exact h
      have htl := ih hk
      simp only [jsSet, if_neg hak, jkeys, List.map_cons]
      simp only [jkeys] at htl
      rw [htl]

theorem jkeys_jsSet_of_not_mem {α : Type} {m : JMap α} {k : String} (v : α)
    (h : k ∉ jkeys m) : jkeys (jsSet m k v) = jkeys m ++ [k] := by
  induction m with
  | nil => simp [jsSet, jkeys]
  | cons hd tl ih =>
    rcases hd with ⟨a, b⟩
    simp only [jkeys, List.map_cons, List.mem_cons, not_or] at h
    have hak : ¬(a = k) := fun hh => h.1 hh.symm
    have htl := ih h.2
    simp only [jsSet, if_neg hak, jkeys, List.map_cons]
    simp only [jkeys] at htl
    rw [htl]
    simp

theorem nodup_jkeys_jsSet {α : Type} {m : JMap α} (k : String) (v : α)
    (h : (jkeys m).Nodup) : (jkeys (jsSet m k v)).Nodup := by
  by_cases hk : k ∈ jkeys m
  · rw [jkeys_jsSet_of_mem v hk]; exact h
  · rw [jkeys_jsSet_of_not_mem v hk]
    refine List.Nodup.append h (by simp) ?_
    intro x hx hx2
    simp only [List.mem_singleton] at hx2
    exact hk (hx2 ▸ hx)

/-! ## Result-initialization lemmas -/

theorem jsGet_initFold (ids : List String) (m : ResultMap) (k : String) :
    jsGet (ids.foldl (fun m id => jsSet m id none) m) k =
      if k ∈ ids then some none else jsGet m k := by
  induction ids generalizing m with
  | nil => simp
  | cons id rest ih =>
    simp only [List.foldl_cons, ih, jsGet_jsSet, List.mem_cons]
    by_cases h1 : k ∈ rest
    · simp [h1]
    · by_cases h2 : k = id <;> simp [h1, h2]

theorem mem_jkeys_initFold (ids : List String) (m : ResultMap) (k : String) :
    k ∈ jkeys (ids.foldl (fun m id => jsSet m id none) m) ↔
      k ∈ jkeys m ∨ k ∈ ids := by
  induction ids generalizing m with
  | nil => simp
  | cons id rest ih =>
    simp only [List.foldl_cons, ih, mem_jkeys_jsSet, List.mem_cons]
    tauto

theorem nodup_jkeys_initFold (ids : List String) (m : ResultMap)
    (h : (jkeys m).Nodup) :
    (jkeys (ids.foldl (fun m id => jsSet m id none) m)).Nodup := by
  induction ids generalizing m with
  | nil => exact h
  | cons id rest ih => exact ih _ (nodup_jkeys_jsSet id none h)

theorem jsGet_initResult (ids : List String) (k : String) :
    jsGet (initResult ids) k = if k ∈ ids then some none else none := by
  simpa [jsGet] using jsGet_initFold ids [] k

theorem mem_jkeys_initResult (ids : List String) (k : String) :
    k ∈ jkeys (initResult ids) ↔ k ∈ ids := by
  simpa [jkeys] using mem_jkeys_initFold ids [] k

theorem nodup_jkeys_initResult (ids : List String) :
    (jkeys (initResult ids)).Nodup := by
  simpa [jkeys] using nodup_jkeys_initFold ids [] (by simp [jkeys])

/-! ## Per-attempt scan lemmas -/

theorem scanTargets_flag_false (m r : ResultMap) (ids : List String) :
    (scanTargets m r false ids).2 = false := by
  induction ids generalizing r with
  | nil => rfl
  | cons id rest ih =>
    simp only [scanTargets]
    by_cases h : strTruthy (mapLookup m id) <;> simp [h, ih]

theorem jkeys_scanTargets (m : ResultMap) (ids : List String) (r : ResultMap)
    (flag : Bool) (h : ∀ i ∈ ids, i ∈ jkeys r) :
    jkeys (scanTargets m r flag ids).1 = jkeys r := by
  induction ids generalizing r flag with
  | nil => rfl
  | cons id rest ih =>
    simp only [scanTargets]
    by_cases ht : strTruthy (mapLookup m id)
    · simp only [ht, if_pos]
      have hmem : id ∈ jkeys r := h id (by simp)
      rw [ih _ _ ?_, jkeys_jsSet_of_mem _ hmem]
      intro i hi
      rw [mem_jkeys_jsSet]
      exact Or.inl (h i (by simp [hi]))
    · simp only [ht, if_neg, Bool.false_eq_true, not_false_iff]
      exact ih _ _ (fun i hi => h i (by simp [hi]))

theorem scanTargets_falsy_fst (m : ResultMap) (ids : List String)
    (r : ResultMap) (flag : Bool)
    (h : ∀ i ∈ ids, strTruthy (mapLookup m i) = false) :
    (scanTargets m r flag ids).1 = r := by
  induction ids generalizing r flag with
  | nil => rfl
  | cons id rest ih =>
    have h0 := h id (by simp)
    simp only [scanTargets, h0]
    exact ih _ _ (fun i hi => h i (by simp [hi]))

theorem scanTargets_falsy_snd (m : ResultMap) (ids : List String)
    (r : ResultMap) (flag : Bool) (hne : ids ≠ [])
    (h : ∀ i ∈ ids, strTruthy (mapLookup m i) = false) :
    (scanTargets m r flag ids).2 = false := by
  cases ids with
  | nil => exact absurd rfl hne
  | cons id rest =>
    have h0 := h id (by simp)
    simp only [scanTargets, h0]
    exact scanTargets_flag_false m r rest

theorem scanTargets_truthy (m : ResultMap) (ids : List String) (r : ResultMap)
    (flag : Bool) (h : ∀ i ∈ ids, strTruthy (mapLookup m i) = true) :
    (scanTargets m r flag ids).2 = flag ∧
      ∀ k, jsGet (scanTargets m r flag ids).1 k =
        if k ∈ ids then some (mapLookup m k) else jsGet r k := by
  induction ids generalizing r flag with
  | nil => simp [scanTargets]
  | cons id rest ih =>
    have h0 := h id (by simp)
    simp only [scanTargets, h0, if_pos]
    obtain ⟨hf, hv⟩ := ih (jsSet r id (mapLookup m id)) flag
      (fun i hi => h i (by simp [hi]))
    refine ⟨hf, fun k => ?_⟩
    rw [hv k, jsGet_jsSet]
    by_cases h1 : k ∈ rest
    · simp [h1]
    · by_cases h2 : k = id
      · subst h2; simp [h1]
      · simp [h1, h2]

theorem scanTargets_get_falsy (m : ResultMap) (ids : List String)
    (r : ResultMap) (flag : Bool) (i : String)
    (h : strTruthy (mapLookup m i) = false) :
    jsGet (scanTargets m r flag ids).1 i = jsGet r i := by
  induction ids generalizing r flag with
  | nil => rfl
  | cons id rest ih =>
    simp only [scanTargets]
    by_cases ht : strTruthy (mapLookup m id)
    · have hne : ¬(i = id) := fun hh => by rw [hh] at h; rw [h] at ht; exact Bool.noConfusion ht
      simp only [ht, if_pos]
      rw [ih _ _, jsGet_jsSet, if_neg hne]
    · simp only [ht, Bool.false_eq_true, if_neg, not_false_iff]
      exact ih _ _

theorem scanTargets_flag_falsy_mem (m : ResultMap) (ids : List String)
    (r : ResultMap) (flag : Bool) (i : String) (hi : i ∈ ids)
    (h : strTruthy (mapLookup m i) = false) :
    (scanTargets m r flag ids).2 = false := by
  induction ids generalizing r flag with
  | nil => simp at hi
  | cons id rest ih =>
    simp only [scanTargets]
    by_cases ht : strTruthy (mapLookup m id)
    · have hne : ¬(i = id) := fun hh => by rw [hh] at h; rw [h] at ht; exact Bool.noConfusion ht
      have hir : i ∈ rest := by
        rcases List.mem_cons.mp hi with h1 | h1
        · exact absurd h1 hne
        · exact h1
      simp only [ht, if_pos]
      exact ih _ _ hir
    · simp only [ht, Bool.false_eq_true, if_neg, not_false_iff]
      exact scanTargets_flag_false m r rest

theorem scanTargets_persist (m : ResultMap) (ids : List String)
    (r : ResultMap) (flag : Bool) (i : String) (v : String)
    (h : jsGet r i = some (some v)) :
    ∃ w, jsGet (scanTargets m r flag ids).1 i = some (some w) := by
  induction ids generalizing r flag v with
  | nil => exact ⟨v, h⟩
  | cons id rest ih =>
    simp only [scanTargets]
    by_cases ht : strTruthy (mapLookup m id)
    · simp only [ht, if_pos]
      by_cases hii : i = id
      · subst hii
        obtain ⟨s, hs, hse⟩ : ∃ s, mapLookup m i = some s ∧ s ≠ "" := by
          cases hm : mapLookup m i with
          | none => rw [hm] at ht; exact absurd ht (by simp [strTruthy])
          | some s =>
            refine ⟨s, rfl, ?_⟩
            rw [hm] at ht
            simpa [strTruthy] using ht
        exact ih _ _ s (by rw [jsGet_jsSet, if_pos rfl, hs])
      · exact ih _ _ v (by rw [jsGet_jsSet, if_neg hii]; exact h)
    · simp only [ht, Bool.false_eq_true, if_neg, not_false_iff]
      exact ih _ _ v h

/-! ## Polling-loop lemmas -/

theorem jkeys_pollAux (ids : List String) (env : Nat → PollOutcome)
    (fuel : Nat) (a : Nat) (r : ResultMap) (h : ∀ i ∈ ids, i ∈ jkeys r) :
    jkeys (pollAux ids env a fuel r).1 = jkeys r := by
  induction fuel generalizing a r with
  | zero => rfl
  | succ f ih =>
    simp only [pollAux]
    cases henv : env a with
    | ok data =>
      simp only
      have hk := jkeys_scanTargets (buildLabelMap data) ids r true h
      by_cases hall : (scanTargets (buildLabelMap data) r true ids).2
      · simp [hall, hk]
      · simp only [hall, Bool.false_eq_true, if_neg, not_false_iff]
        rw [ih _ _ (fun i hi => by rw [hk]; exact h i hi), hk]
    | notOk => simpa using ih _ _ h
    | fetchError => simpa using ih _ _ h

theorem pollAux_never (ids : List String) (env : Nat → PollOutcome)
    (hne : ids ≠ [])
    (hnone : ∀ t data, env t = PollOutcome.ok data →
      ∀ i ∈ ids, strTruthy (mapLookup (buildLabelMap data) i) = false)
    (fuel : Nat) (a : Nat) (r : ResultMap) :
    pollAux ids env a fuel r = (r, fuel, fuel) := by
  induction fuel generalizing a r with
  | zero => rfl
  | succ f ih =>
    simp only [pollAux]
    cases henv : env a with
    | ok data =>
      have hfa := hnone a data henv
      have h1 := scanTargets_falsy_fst (buildLabelMap data) ids r true hfa
      have h2 := scanTargets_falsy_snd (buildLabelMap data) ids r true hne hfa
      simp [h2, h1, ih]
    | notOk => simp [ih]
    | fetchError => simp [ih]

theorem pollAux_persist (ids : List String) (env : Nat → PollOutcome)
    (fuel : Nat) (a : Nat) (r : ResultMap) (i : String) (v : String)
    (h : jsGet r i = some (some v)) :
    ∃ w, jsGet (pollAux ids env a fuel r).1 i = some (some w) := by
  induction fuel generalizing a r v with
  | zero => exact ⟨v, h⟩
  | succ f ih =>
    simp only [pollAux]
    cases henv : env a with
    | ok data =>
      obtain ⟨w, hw⟩ :=
        scanTargets_persist (buildLabelMap data) ids r true i v h
      by_cases hall : (scanTargets (buildLabelMap data) r true ids).2
      · exact ⟨w, by simp [hall, hw]⟩
      · simp only [hall, Bool.false_eq_true, if_neg, not_false_iff]
        exact ih _ _ w hw
    | notOk => simpa using ih _ _ v h
    | fetchError => simpa using ih _ _ v h

theorem pollAux_counts (ids : List String) (env : Nat → PollOutcome)
    (fuel : Nat) (a : Nat) (r : ResultMap) :
    (pollAux ids env a fuel r).2.1 ≤ fuel ∧
      (pollAux ids env a fuel r).2.2 ≤ fuel ∧
      ((pollAux ids env a fuel r).2.2 = (pollAux ids env a fuel r).2.1 ∨
        (pollAux ids env a fuel r).2.2 + 1 = (pollAux ids env a fuel r).2.1) := by
  induction fuel generalizing a r with
  | zero => simp [pollAux]
  | succ f ih =>
    simp only [pollAux]
    cases henv : env a with
    | ok data =>
      by_cases hall : (scanTargets (buildLabelMap data) r true ids).2
      · simp [hall]
      · simp only [hall, Bool.false_eq_true, if_neg, not_false_iff]
        obtain ⟨h1, h2, h3⟩ := ih (a + 1) (scanTargets (buildLabelMap data) r true ids).1
        exact ⟨by omega, by omega, by omega⟩
    | notOk =>
      obtain ⟨h1, h2, h3⟩ := ih (a + 1) r
      exact ⟨by simpa using Nat.succ_le_succ h1, by simpa using Nat.succ_le_succ h2, by simp; omega⟩
    | fetchError =>
      obtain ⟨h1, h2, h3⟩ := ih (a + 1) r
      exact ⟨by simpa using Nat.succ_le_succ h1, by simpa using Nat.succ_le_succ h2, by simp; omega⟩

/-! ## Stable-sort lemmas -/

theorem orderedIns_perm (x : Order) (l : List Order) :
    (orderedIns x l).Perm (x :: l) := by
  induction l with
  | nil => simp [orderedIns]
  | cons y ys ih =>
    simp only [orderedIns]
    by_cases h : orderKey y ≤ orderKey x
    · simp [h]
    · simp only [h, if_neg, not_false_iff]
      exact ((ih.cons y).trans (List.Perm.swap x y ys))

theorem sortOrders_perm (l : List Order) : (sortOrders l).Perm l := by
  induction l with
  | nil => simp [sortOrders]
  | cons x xs ih =>
    exact (orderedIns_perm x (sortOrders xs)).trans (ih.cons x)

theorem mem_orderedIns {z x : Order} {l : List Order} :
    z ∈ orderedIns x l ↔ z = x ∨ z ∈ l := by
  rw [(orderedIns_perm x l).mem_iff, List.mem_cons]

theorem orderedIns_pairwise (x : Order) (l : List Order)
    (hp : l.Pairwise (fun a b => orderKey b ≤ orderKey a)) :
    (orderedIns x l).Pairwise (fun a b => orderKey b ≤ orderKey a) := by
  induction l with
  | nil => simp [orderedIns]
  | cons y ys ih =>
    simp only [orderedIns]
    by_cases h : orderKey y ≤ orderKey x
    · simp only [h, if_pos]
      refine List.Pairwise.cons (fun z hz => ?_) hp
      rcases List.mem_cons.mp hz with hz | hz
      · subst hz; exact h
      · exact le_trans (List.rel_of_pairwise_cons hp hz) h
    · simp only [h, if_neg, not_false_iff]
      refine List.Pairwise.cons (fun z hz => ?_) (ih (List.Pairwise.of_cons hp))
      rcases mem_orderedIns.mp hz with hz | hz
      · subst hz; exact le_of_lt (not_le.mp h)
      · exact List.rel_of_pairwise_cons hp hz

theorem sortOrders_sorted (l : List Order) :
    (sortOrders l).Pairwise (fun a b => orderKey b ≤ orderKey a) := by
  induction l with
  | nil => simp [sortOrders]
  | cons x xs ih => exact orderedIns_pairwise x (sortOrders xs) ih

theorem filter_orderedIns_pos (k : Int) (x : Order) (l : List Order)
    (h : orderKey x = k) :
    (orderedIns x l).filter (fun o => orderKey o = k) =
      x :: l.filter (fun o => orderKey o = k) := by
  induction l with
  | nil => simp [orderedIns, List.filter, h]
  | cons y ys ih =>
    simp only [orderedIns]
    by_cases hle : orderKey y ≤ orderKey x
    · rw [if_pos hle]
      simp [List.filter, h]
    · have hyk : ¬(orderKey y = k) := fun hk => hle (le_of_eq (hk.trans h.symm))
      rw [if_neg hle]
      simp [List.filter, hyk, ih]

theorem filter_orderedIns_neg (k : Int) (x : Order) (l : List Order)
    (h : ¬(orderKey x = k)) :
    (orderedIns x l).filter (fun o => orderKey o = k) =
      l.filter (fun o => orderKey o = k) := by
  induction l with
  | nil => simp [orderedIns, List.filter, h]
  | cons y ys ih =>
    simp only [orderedIns]
    by_cases hle : orderKey y ≤ orderKey x
    · rw [if_pos hle]
      simp [List.filter, h]
    · rw [if_neg hle]
      by_cases hy : orderKey y = k <;> simp [List.filter, hy, ih]

theorem sortOrders_filter (k : Int) (l : List Order) :
    (sortOrders l).filter (fun o => orderKey o = k) =
      l.filter (fun o => orderKey o = k) := by
  induction l with
  | nil => rfl
  | cons x xs ih =>
    simp only [sortOrders]
    by_cases h : orderKey x = k
    · rw [filter_orderedIns_pos k x _ h, ih]
      simp [List.filter, h]
    · rw [filter_orderedIns_neg k x _ h, ih]
      simp [List.filter, h]

/-! ## Claim theorems -/

/-- C1: for every reconciliation run over a non-empty target list, the
result map has exactly one entry per input target identifier — its key set
equals the input set, with no additions and no omissions — regardless of
how the run ends. -/
theorem claim_C1 (ids : List String) (env : Nat → PollOutcome) (n : Nat)
    (_hne : ids ≠ []) :
    (jkeys (pollForLabels ids env n).1).Nodup ∧
      ∀ k, k ∈ jkeys (pollForLabels ids env n).1 ↔ k ∈ ids := by
  have hkeys : jkeys (pollForLabels ids env n).1 = jkeys (initResult ids) := by
    refine jkeys_pollAux ids env n 0 (initResult ids) (fun i hi => ?_)
    exact (mem_jkeys_initResult ids i).mpr hi
  rw [pollForLabels] at *
  rw [hkeys]
  exact ⟨nodup_jkeys_initResult ids, fun k => mem_jkeys_initResult ids k⟩

theorem claim_C1_witness :
    (jkeys (pollForLabels ["A100", "A101"] envNotOk 2).1).Nodup ∧
      ("A100" ∈ jkeys (pollForLabels ["A100", "A101"] envNotOk 2).1 ↔
        "A100" ∈ (["A100", "A101"] : List String)) :=
  ⟨(claim_C1 ["A100", "A101"] envNotOk 2 (by decide)).1,
    (claim_C1 ["A100", "A101"] envNotOk 2 (by decide)).2 ("A100")⟩

/-- C2: if the first poll attempt's listing response carries a truthy label
for every target identifier, the run stops after exactly one poll attempt,
sleeps zero times, and maps each target to its discovered label. -/
theorem claim_C2 (ids : List String) (env : Nat → PollOutcome) (n : Nat)
    (data : List RawOrder) (h0 : env 0 = PollOutcome.ok data) (hn : 0 < n)
    (hall : ∀ i ∈ ids, strTruthy (mapLookup (buildLabelMap data) i) = true) :
    (pollForLabels ids env n).2.1 = 1 ∧ (pollForLabels ids env n).2.2 = 0 ∧
      ∀ i ∈ ids, jsGet (pollForLabels ids env n).1 i =
        some (mapLookup (buildLabelMap data) i) := by
  obtain ⟨f, rfl⟩ : ∃ f, n = f + 1 := ⟨n - 1, (Nat.succ_pred_eq_of_pos hn).symm⟩
  obtain ⟨hf, hv⟩ :=
    scanTargets_truthy (buildLabelMap data) ids (initResult ids) true hall
  simp only [pollForLabels, pollAux, h0, hf, if_pos]
  refine ⟨trivial, trivial, fun i hi => ?_⟩
  rw [hv i, if_pos hi]

theorem claim_C2_witness :
    (pollForLabels ["A100"] envFound 3).2.1 = 1 ∧
      jsGet (pollForLabels ["A100"] envFound 3).1 ("A100") =
        some (mapLookup (buildLabelMap [rawA100]) ("A100")) :=
  ⟨(claim_C2 ["A100"] envFound 3 [rawA100] rfl (by decide) (by decide)).1,
    (claim_C2 ["A100"] envFound 3 [rawA100] rfl (by decide) (by decide)).2.2
      ("A100") (by decide)⟩

/-- C3: if no poll attempt's listing response ever carries a truthy label
for any target, the run performs exactly `maxAttempts` poll requests (and
as many sleeps) and maps every target to `null`. -/
theorem claim_C3 (ids : List String) (env : Nat → PollOutcome) (n : Nat)
    (hne : ids ≠ [])
    (hnone : ∀ t data, env t = PollOutcome.ok data →
      ∀ i ∈ ids, strTruthy (mapLookup (buildLabelMap data) i) = false) :
    (pollForLabels ids env n).2.1 = n ∧ (pollForLabels ids env n).2.2 = n ∧
      ∀ i ∈ ids, jsGet (pollForLabels ids env n).1 i = some none := by
  rw [pollForLabels, pollAux_never ids env hne hnone n 0 (initResult ids)]
  refine ⟨rfl, rfl, fun i hi => ?_⟩
  rw [jsGet_initResult, if_pos hi]

theorem claim_C3_witness :
    (pollForLabels ["A100"] envNotOk 2).2.1 = 2 ∧
      jsGet (pollForLabels ["A100"] envNotOk 2).1 ("A100") = some none :=
  ⟨(claim_C3 ["A100"] envNotOk 2 (by decide)
      (fun t data h => absurd h (by simp [envNotOk]))).1,
    (claim_C3 ["A100"] envNotOk 2 (by decide)
      (fun t data h => absurd h (by simp [envNotOk]))).2.2 ("A100") (by decide)⟩

/-- C4 counterexample: with `maxAttempts = 1` and a failing listing, the
single (final) poll attempt is still followed by a `poll_interval` sleep —
the claim's "no delay is executed after the final poll attempt" predicts
zero sleeps here, but the loop executes one. -/
theorem claim_C4_counterexample :
    (pollForLabels ["A100"] envNotOk 1).2.1 = 1 ∧
      (pollForLabels ["A100"] envNotOk 1).2.2 = 1 := by
  decide

/-- C4 amended: the delay executes at the end of every poll iteration that
does not terminate the run by early exit — including after the final
attempt — so the sleep count equals the poll count (budget exhaustion) or
falls one short of it (early exit), and both are bounded by `maxAttempts`;
the wall-clock bound `maxAttempts × (poll_interval + poll latency)` still
holds. -/
theorem claim_C4_amended (ids : List String) (env : Nat → PollOutcome)
    (n : Nat) :
    (pollForLabels ids env n).2.1 ≤ n ∧ (pollForLabels ids env n).2.2 ≤ n ∧
      ((pollForLabels ids env n).2.2 = (pollForLabels ids env n).2.1 ∨
        (pollForLabels ids env n).2.2 + 1 = (pollForLabels ids env n).2.1) :=
  pollAux_counts ids env n 0 (initResult ids)

/-- C5: a thrown fetch/decode error or a non-OK response on a poll attempt
does not abort the run and leaves the result map of that attempt untouched:
the iteration contributes exactly one poll request and one sleep, the
remaining attempts proceed from the same result state, and every target
already holding a label keeps a label through the rest of the run. -/
theorem claim_C5 (ids : List String) (env : Nat → PollOutcome) (a f : Nat)
    (r : ResultMap)
    (h : env a = PollOutcome.fetchError ∨ env a = PollOutcome.notOk) :
    pollAux ids env a (f + 1) r =
      ((pollAux ids env (a + 1) f r).1,
        (pollAux ids env (a + 1) f r).2.1 + 1,
        (pollAux ids env (a + 1) f r).2.2 + 1) ∧
      ∀ i v, jsGet r i = some (some v) →
        ∃ w, jsGet (pollAux ids env a (f + 1) r).1 i = some (some w) := by
  constructor
  · rcases h with h | h <;> simp [pollAux, h]
  · exact fun i v hv => pollAux_persist ids env (f + 1) a r i v hv

theorem claim_C5_witness :
    pollAux ["A100"] envNotOk 0 2 [("A100", some "u1")] =
      ((pollAux ["A100"] envNotOk 1 1 [("A100", some "u1")]).1,
        (pollAux ["A100"] envNotOk 1 1 [("A100", some "u1")]).2.1 + 1,
        (pollAux ["A100"] envNotOk 1 1 [("A100", some "u1")]).2.2 + 1) ∧
      ∃ w, jsGet (pollAux ["A100"] envNotOk 0 2 [("A100", some "u1")]).1
        ("A100") = some (some w) :=
  ⟨(claim_C5 ["A100"] envNotOk 0 1 [("A100", some "u1")] (Or.inr rfl)).1,
    (claim_C5 ["A100"] envNotOk 0 1 [("A100", some "u1")] (Or.inr rfl)).2
      ("A100") ("u1") rfl⟩

/-- C6: the completion patch maps the store record-by-record: the length
and order of the page are preserved (so a resolved identifier absent from
the page adds nothing), every field other than `label_url` is unchanged,
and a record whose identifier did not resolve to a truthy label is left
entirely unchanged. -/
theorem claim_C6 (pr : ResultMap) (orders : List Order) :
    (applyPollResult pr orders).length = orders.length ∧
      List.Forall₂ (fun o o' =>
        o'.order_id = o.order_id ∧ o'.name = o.name ∧
        o'.phone_number = o.phone_number ∧ o'.city = o.city ∧
        o'.bookId = o.bookId ∧ o'.bookStyle = o.bookStyle ∧
        o'.coverPdf = o.coverPdf ∧ o'.interiorPdf = o.interiorPdf ∧
        o'.printer = o.printer ∧ o'.print_sent_at = o.print_sent_at ∧
        o'.zip = o.zip ∧
        (strTruthy (jsRecGet pr o.order_id) = false → o' = o))
        orders (applyPollResult pr orders) := by
  refine ⟨by simp [applyPollResult], ?_⟩
  rw [applyPollResult, List.forall₂_map_right_iff, List.forall₂_same]
  intro o _
  by_cases h : strTruthy (jsRecGet pr o.order_id)
  · simp [patchOrder, h]
  · simp [patchOrder, h]

theorem claim_C6_witness :
    (applyPollResult prEx [ordEx1, ordEx2]).length = 2 ∧
      applyPollResult prEx [ordEx1, ordEx2] =
        [{ ordEx1 with label_url := "u1" }, ordEx2] :=
  ⟨by simpa using (claim_C6 prEx [ordEx1, ordEx2]).1, by decide⟩

/-- C7 counterexample: the claim says a record with no `print_sent_at`
always sorts after any record that has one, but `epochTsOrder` carries the
valid timestamp `1970-01-01T00:00:00Z`, whose `getTime() || 0` key equals
the missing-timestamp key `0`, so the stable sort leaves the no-timestamp
record `noTsOrder` in front of it. -/
theorem claim_C7_counterexample :
    noTsOrder.print_sent_at = "" ∧ epochTsOrder.print_sent_at ≠ "" ∧
      sortOrders [noTsOrder, epochTsOrder] = [noTsOrder, epochTsOrder] := by
  decide

/-- C7 amended: a store refresh sorts records into descending order of the
comparator key `parse(print_sent_at)` — so of two records with parseable
timestamps the later instant comes first, and a record with no timestamp
(key `0`) sorts after every record whose timestamp parses to a post-epoch
instant, though not necessarily after one whose timestamp parses to the
epoch itself (or fails to parse, or is pre-epoch); all keys are kept (the
output is a permutation of the input) and records with equal keys —
including all no-timestamp records — preserve their relative input
order. -/
theorem claim_C7_amended (l : List Order) :
    (sortOrders l).Pairwise (fun a b => orderKey b ≤ orderKey a) ∧
      (sortOrders l).Perm l ∧
      (∀ k : Int, (sortOrders l).filter (fun o => orderKey o = k) =
        l.filter (fun o => orderKey o = k)) ∧
      ∀ o : Order, o.print_sent_at = "" → orderKey o = 0 :=
  ⟨sortOrders_sorted l, sortOrders_perm l, fun k => sortOrders_filter k l,
    fun o h => by simp [orderKey, h, jsParse]⟩

theorem claim_C7_witness :
    orderKey noTsOrder = 0 ∧
      (sortOrders [epochTsOrder, noTsOrder]).Perm [epochTsOrder, noTsOrder] :=
  ⟨(claim_C7_amended []).2.2.2 noTsOrder rfl,
    (claim_C7_amended [epochTsOrder, noTsOrder]).2.1⟩

/-- C8: a `print_sent_at` string with no explicit zone marker is normalized
before parsing — its sub-second digits are truncated to three and a `Z`
(UTC) suffix is appended — and in particular the six-fractional-digit,
zone-less example normalizes to `2024-01-05T10:00:00.123Z` and parses to
that exact UTC instant (epoch milliseconds 1704448800123). -/
theorem claim_C8 :
    (∀ v : String, v ≠ "" → hasZoneMarker v.data = false →
      jsParse v = getTimeOr0 (truncFrac v.data ++ ['Z'])) ∧
      String.mk (normalizeTs (("2024-01-05T10:00:00.123456").data)) =
        "2024-01-05T10:00:00.123Z" ∧
      jsParse ("2024-01-05T10:00:00.123456") = 1704448800123 ∧
      jsDateParseChars (("2024-01-05T10:00:00.123Z").data) =
        some 1704448800123 := by
  refine ⟨fun v hv hz => ?_, by decide, by decide, by decide⟩
  simp [jsParse, hv, normalizeTs, hz]

theorem claim_C8_witness :
    jsParse ("2024-01-05T10:00:00.123456") =
      getTimeOr0 (truncFrac (("2024-01-05T10:00:00.123456").data) ++ ['Z']) ∧
      jsParse ("2024-01-05T10:00:00.123456") = 1704448800123 :=
  ⟨claim_C8.1 ("2024-01-05T10:00:00.123456") (by decide) (by decide),
    claim_C8.2.2.1⟩

/-- C9: a refresh whose listing fetch throws or returns a non-OK response
ends with an empty record set and a total count of zero, without raising
and without retaining the previous page. -/
theorem claim_C9 (token printerKey : String) (oc : FetchOutcome)
    (h : oc = FetchOutcome.fetchError ∨ oc = FetchOutcome.notOk) :
    fetchGenesisOrders token printerKey oc = ([], 0) := by
  by_cases ht : token = "" <;> rcases h with h | h <;> subst h <;>
    simp [fetchGenesisOrders, ht]

theorem claim_C9_witness :
    fetchGenesisOrders ("tok") ("genesis") FetchOutcome.notOk = ([], 0) :=
  claim_C9 ("tok") ("genesis") FetchOutcome.notOk (Or.inr rfl)

/-- C10: an empty-string `label_url` is treated as an absent label at every
public interface — the refresh trims an absent `label_url` to `""`; a poll
attempt seeing a falsy label for a target clears the early-exit flag and
leaves that target's result entry unchanged; and the completion patch
either leaves a record untouched or writes a non-empty label, never an
empty string. -/
theorem claim_C10 :
    (∀ ro : RawOrder, ro.label_url = none → (trimOrder ro).label_url = "") ∧
      (∀ (m r : ResultMap) (flag : Bool) (ids : List String) (i : String),
        i ∈ ids → strTruthy (mapLookup m i) = false →
          (scanTargets m r flag ids).2 = false ∧
            jsGet (scanTargets m r flag ids).1 i = jsGet r i) ∧
      ∀ (pr : ResultMap) (o : Order),
        patchOrder pr o = o ∨ (patchOrder pr o).label_url ≠ "" := by
  refine ⟨fun ro h => by simp [trimOrder, h, jsOr],
    fun m r flag ids i hi hf =>
      ⟨scanTargets_flag_falsy_mem m ids r flag i hi hf,
        scanTargets_get_falsy m ids r flag i hf⟩,
    fun pr o => ?_⟩
  by_cases h : strTruthy (jsRecGet pr o.order_id)
  · right
    cases hv : jsRecGet pr o.order_id with
    | none => rw [hv] at h; simp [strTruthy] at h
    | some s =>
      have hs : s ≠ "" := by rw [hv] at h; simpa [strTruthy] using h
      simp [patchOrder, hv, strTruthy, hs, jsOr]
  · left
    simp [patchOrder, h]

theorem claim_C10_witness :
    (trimOrder { order_id := "A100" }).label_url = "" ∧
      (scanTargets [("A100", some "")] (initResult ["A100"]) true
        ["A100"]).2 = false ∧
      (patchOrder [("A100", some "")] plainOrder = plainOrder ∨
        (patchOrder [("A100", some "")] plainOrder).label_url ≠ "") :=
  ⟨claim_C10.1 { order_id := "A100" } rfl,
    (claim_C10.2.1 [("A100", some "")] (initResult ["A100"]) true ["A100"]
      ("A100") (by decide) (by decide)).1,
    claim_C10.2.2 [("A100", some "")] plainOrder⟩
